import Mathlib

/-!
Verification development for the repository's two source files:

* `update-metrics.sh` — a metrics aggregator that walks git history and
  maintains `metrics.json`, a JSON array of daily snapshots
  `{date, repos: {name: {commits, loc}}}`.
* `worker/src/index.js` — a Cloudflare worker handling `POST /api/visit`.

Shallow embedding conventions:

* Calendar dates are modelled as `Nat` day numbers.  Lexicographic order on
  `YYYY-MM-DD` strings coincides with numeric order on day numbers, and
  `date -d "+1 day"` is successor, so the abstraction is order- and
  step-faithful.
* A repository's git history is a linear list of commits, oldest first,
  each carrying its commit day (author and committer date modelled as one
  day, as in an ordinary workflow) and the snapshot of tracked files at
  that commit, each file being a path together with its `wc -l` line count.
* A repository directory that is not a git checkout (`[ -d .git ]` fails)
  is modelled by `hist = none`.
-/

/-- One commit of a repository: its commit day and the tracked files at
that commit (path, line count as reported by `wc -l`). -/
structure Commit where
  day : Nat
  files : List (String × Nat)
deriving DecidableEq, Repr

/-- One element of `REPO_DEFS` together with the state of the working
directory: name, directory scopes (`dirs`, empty list = whole tree),
extension filters, and the git history (`none` when `.git` is absent). -/
structure RepoDef where
  name : String
  dirs : List String
  exts : List String
  hist : Option (List Commit)
deriving DecidableEq, Repr

/-- Per-repository part of a daily snapshot: `"name":{"commits":c,"loc":l}`. -/
structure RepoEntry where
  name : String
  commits : Nat
  loc : Nat
deriving DecidableEq, Repr

/-- One line of `metrics.json`: `{"date":"...","repos":{...}}`. -/
structure Entry where
  date : Nat
  repos : List RepoEntry
deriving DecidableEq, Repr

/-- `make_ext_pattern` builds `\.(e1|e2|...)$` and the file list is piped
through `grep -E`: a path passes iff it ends in a dot followed by one of
the configured extensions. -/
def extMatch (exts : List String) (path : String) : Bool :=
  exts.any (fun e => ('.' :: e.data).isSuffixOf path.data)

/-- `git ls-tree -r --name-only ref -- $dirs` restricts to paths under the
given pathspecs; the configured scopes all end in `/`, so this is prefix
matching. -/
def dirMatch (dirs : List String) (path : String) : Bool :=
  dirs.any (fun dir => dir.data.isPrefixOf path.data)

/-- The file list produced inside `count_loc_repo`: all tracked files at
the commit when `dirs` is empty, otherwise only those under a scope, in
both cases filtered by the extension pattern. -/
def lsFiles (c : Commit) (dirs : List String) (exts : List String) :
    List (String × Nat) :=
  if dirs.isEmpty then
    c.files.filter (fun f => extMatch exts f.1)
  else
    c.files.filter (fun f => dirMatch dirs f.1 && extMatch exts f.1)

/-- `count_loc_repo`: sum of `wc -l` over the selected files (`0` when the
list is empty, as the early return does). -/
def count_loc_repo (c : Commit) (dirs : List String) (exts : List String) : Nat :=
  (lsFiles c dirs exts).foldl (fun t f => t + f.2) 0

/-- `git rev-list -1 --before=dT23:59:59 HEAD` followed by
`git rev-list --count $commit` on a linear history listed oldest-first:
the most recent (latest-in-history) commit whose day is at most `d`,
returned together with the number of commits reachable from it
(its position in the history plus one). -/
def selectGo (d : Nat) : List Commit → Option (Nat × Commit)
  | [] => none
  | c :: cs =>
    match selectGo d cs with
    | some (k, c') => some (k + 1, c')
    | none => if c.day ≤ d then some (1, c) else none

/-- The per-repository loop body of `compute_day`: skip repositories
without a checkout and repositories with no commit by `d`; otherwise emit
`"name":{"commits":k,"loc":loc}` in configuration order. -/
def repoEntries (d : Nat) : List RepoDef → List RepoEntry
  | [] => []
  | r :: rs =>
    match r.hist with
    | none => repoEntries d rs
    | some h =>
      match selectGo d h with
      | none => repoEntries d rs
      | some (k, c) =>
        ⟨r.name, k, count_loc_repo c r.dirs r.exts⟩ :: repoEntries d rs

/-- `compute_day`: the snapshot for day `d`, or `none` (exit status 1,
nothing printed) when no repository had any commit by `d`. -/
def compute_day (repos : List RepoDef) (d : Nat) : Option Entry :=
  let rs := repoEntries d repos
  if rs.isEmpty then none else some ⟨d, rs⟩

/-- `earliest_first_date`: minimum, over repositories with a non-empty
history, of the first commit's day (`git log --reverse | head -1`); ties
keep the earlier-listed repository, matching the strict `<` comparison. -/
def earliest_first_date : List RepoDef → Option Nat
  | [] => none
  | r :: rs =>
    let rest := earliest_first_date rs
    match r.hist with
    | none => rest
    | some [] => rest
    | some (c :: _) =>
      match rest with
      | none => some c.day
      | some e => if c.day ≤ e then some c.day else some e

/-- The inclusive day range walked by the main `while` loop:
`[a, a+1, ..., b]`, empty when `b < a`. -/
def daysFromTo (a b : Nat) : List Nat :=
  List.range' a (b + 1 - a)

/-- The per-day loop shared by both branches of the script.  `cached` is
the `existing_dates` lookup (a day already present is skipped with a
"(cached)" message); for every other day `compute_day` is invoked and its
snapshot, when any, is appended.  Returns the appended snapshots in day
order together with the list of days for which `compute_day` ran. -/
def dayLoop (repos : List RepoDef) (cached : List Nat) :
    List Nat → List Entry × List Nat
  | [] => ([], [])
  | d :: ds =>
    let rest := dayLoop repos cached ds
    if d ∈ cached then rest
    else
      match compute_day repos d with
      | some e => (e :: rest.1, d :: rest.2)
      | none => (rest.1, d :: rest.2)

/-- Ordering used by the final `sort -t'"' -k4`: entries compare by their
date field (lexicographic on `YYYY-MM-DD` = numeric on day numbers). -/
def entryLE (a b : Entry) : Prop :=
  a.date ≤ b.date

instance : DecidableRel entryLE :=
  fun a b => Nat.decLe a.date b.date

instance : IsTotal Entry entryLE :=
  ⟨fun a b => Nat.le_total a.date b.date⟩

instance : IsTrans Entry entryLE :=
  ⟨fun _ _ _ => Nat.le_trans⟩

/-- The final `sort` over entry lines, keyed on the date field. -/
def sortEntries (es : List Entry) : List Entry :=
  List.insertionSort entryLE es

/-- The `--seed` branch: fail (exit 1) when no repository has any commit;
otherwise walk every day from the earliest first-commit day through
`today`, skipping days whose date already appears in the loaded file, and
finally sort.  Returns the sorted series and the trace of days for which
`compute_day` was invoked. -/
def runSeed (repos : List RepoDef) (today : Nat) (existing : List Entry) :
    Option (List Entry × List Nat) :=
  match earliest_first_date repos with
  | none => none
  | some first =>
    let cached := existing.map (fun e => e.date)
    let r := dayLoop repos cached (daysFromTo first today)
    some (sortEntries (existing ++ r.1), r.2)

/-- The incremental branch: when the loaded series is non-empty, drop its
last entry, remove the first occurrence of its date from the lookup
string (the `sed "s/$last_date //"`), and walk from that date through
`today`; when it is empty, walk from `today`.  Finally sort. -/
def runInc (repos : List RepoDef) (today : Nat) (existing : List Entry) :
    List Entry × List Nat :=
  match existing.getLast? with
  | some last =>
    let entries' := existing.dropLast
    let cached := (existing.map (fun e => e.date)).erase last.date
    let r := dayLoop repos cached (daysFromTo last.date today)
    (sortEntries (entries' ++ r.1), r.2)
  | none =>
    let r := dayLoop repos [] (daysFromTo today today)
    (sortEntries r.1, r.2)

/-!  Byte-level model of the final `write_json` call.  The script touches
`METRICS_FILE` nowhere else; `echo "[" > file` truncates the file, and
each subsequent `echo ... >> file` appends one line. -/

/-- The JSON line `printf '{"date":"%s","repos":{%s}}'` builds for one
repository: `"name":{"commits":c,"loc":l}`. -/
def repoJson (r : RepoEntry) : String :=
  "\"" ++ r.name ++ "\":\x7b\"commits\":" ++ toString r.commits ++
    ",\"loc\":" ++ toString r.loc ++ "\x7d"

/-- The comma-joined `repos_json` accumulator. -/
def reposJson : List RepoEntry → String
  | [] => ""
  | [r] => repoJson r
  | r :: rs => repoJson r ++ "," ++ reposJson rs

/-- The full entry line emitted by `compute_day`'s `printf`. -/
def entryLine (e : Entry) : String :=
  "\x7b\"date\":\"" ++ toString e.date ++ "\",\"repos\":\x7b" ++
    reposJson e.repos ++ "\x7d\x7d"

/-- The entry lines of `write_json`'s loop: two-space indent, a trailing
comma on every line but the last. -/
def renderEntries : List Entry → List String
  | [] => []
  | [e] => ["  " ++ entryLine e]
  | e :: es => ("  " ++ entryLine e ++ ",") :: renderEntries es

/-- The complete file contents `write_json` leaves behind. -/
def write_json (es : List Entry) : List String :=
  "[" :: renderEntries es ++ ["]"]

/-- Successive file contents while lines are appended one at a time. -/
def appendStates (acc : List String) : List String → List (List String)
  | [] => []
  | l :: ls => (acc ++ [l]) :: appendStates (acc ++ [l]) ls

/-- Successive contents of `METRICS_FILE` during `write_json`: the `>`
redirect truncates the file to its first line, then each `>>` echo
appends one line. -/
def writeStates (es : List Entry) : List (List String) :=
  appendStates [] (write_json es)

/-- Contents of `METRICS_FILE` over a whole run that reaches the final
write: the previous contents `old` throughout the computation (the file
is opened for writing only inside `write_json`), then the write states. -/
def fileStates (old : List String) (es : List Entry) : List (List String) :=
  old :: writeStates es

/-- Contents of `METRICS_FILE` over a `--seed` run: when no repository
has any history the script exits 1 before any write and the file keeps
its previous contents; otherwise the final write runs. -/
def seedFileStates (repos : List RepoDef) (today : Nat)
    (old : List String) (existing : List Entry) : List (List String) :=
  match runSeed repos today existing with
  | none => [old]
  | some (out, _) => fileStates old out

/-!  Embedding of `worker/src/index.js`. -/

/-- The fields `handleVisit` reads from the parsed request body; a field
missing from the JSON object is `none` (JavaScript `undefined`). -/
structure VisitBody where
  page_path : Option String
  referrer : Option String
  platform : Option String
deriving DecidableEq, Repr

/-- The fields read from `request.cf` (already defaulted to `{}` when
absent). -/
structure CFInfo where
  country : Option String
  city : Option String
  region : Option String
  postalCode : Option String
deriving DecidableEq, Repr

/-- The row inserted into `page_visits`. -/
structure Row where
  page_path : String
  referrer : Option String
  platform : Option String
  city : Option String
  region : Option String
  country : Option String
  country_code : Option String
  postal : Option String
deriving DecidableEq, Repr

/-- Response of the upstream Supabase REST call. -/
structure UpstreamResult where
  ok : Bool
  text : String
deriving DecidableEq, Repr

/-- Body of the worker's response: `JSON.stringify({ok:true})` or
`JSON.stringify({error: msg})`. -/
inductive RespBody where
  | jsonOk : RespBody
  | jsonError : String → RespBody
deriving DecidableEq, Repr

/-- The worker's HTTP response (`new Response` without a status is 200). -/
structure WorkerResp where
  status : Nat
  body : RespBody
deriving DecidableEq, Repr

/-- JavaScript `x || y` on an optional string: the empty string is falsy. -/
def jsOr (v : Option String) (dflt : String) : String :=
  match v with
  | some s => if s = "" then dflt else s
  | none => dflt

/-- JavaScript `x || null` on an optional string. -/
def jsOrNull (v : Option String) : Option String :=
  match v with
  | some s => if s = "" then none else some s
  | none => none

/-- The `row` object built by `handleVisit`.  `regionOf` models
`regionNames.of`: `none` when it throws, in which case the inner `catch`
falls back to the ISO code itself. -/
def buildRow (b : VisitBody) (cf : CFInfo)
    (regionOf : String → Option String) : Row :=
  let countryCode := jsOrNull cf.country
  let countryName := countryCode.map (fun cc => (regionOf cc).getD cc)
  { page_path := jsOr b.page_path "/"
    referrer := jsOrNull b.referrer
    platform := jsOrNull b.platform
    city := jsOrNull cf.city
    region := jsOrNull cf.region
    country := countryName
    country_code := countryCode
    postal := jsOrNull cf.postalCode }

/-- `handleVisit`.  `parsed` is the outcome of `request.json()` (`error`
when it throws); `upstream` is the Supabase `fetch` (`error` when the
promise rejects).  Every throwing operation sits inside the `try`, whose
`catch` returns the 500 error response, so the function is total. -/
def handleVisit (parsed : Except String VisitBody) (cf : CFInfo)
    (regionOf : String → Option String)
    (upstream : Row → Except String UpstreamResult) : WorkerResp :=
  match parsed with
  | .error e => ⟨500, .jsonError e⟩
  | .ok b =>
    match upstream (buildRow b cf regionOf) with
    | .error e => ⟨500, .jsonError e⟩
    | .ok res =>
      if res.ok then ⟨200, .jsonOk⟩
      else ⟨500, .jsonError res.text⟩

/-!  Helper lemmas about commit selection. -/

theorem selectGo_day_le {d : Nat} :
    ∀ {h : List Commit} {k : Nat} {c : Commit},
      selectGo d h = some (k, c) → c.day ≤ d := by
  intro h
  induction h with
  | nil => intro k c hc; simp [selectGo] at hc
  | cons a t ih =>
    intro k c hc
    simp only [selectGo] at hc
    cases ht : selectGo d t with
    | some q =>
      rw [ht] at hc
      cases hc
      exact ih ht
    | none =>
      rw [ht] at hc
      by_cases hd : a.day ≤ d
      · simp [hd] at hc
        cases hc.2
        exact hd
      · simp [hd] at hc

theorem selectGo_none_of_all_late {d : Nat} :
    ∀ {h : List Commit}, (∀ c ∈ h, d < c.day) → selectGo d h = none := by
  intro h
  induction h with
  | nil => intro _; rfl
  | cons a t ih =>
    intro hall
    have ht : selectGo d t = none := ih (fun c hc => hall c (List.mem_cons_of_mem _ hc))
    have ha : ¬ a.day ≤ d := Nat.not_le_of_lt (hall a (List.mem_cons_self _ _))
    simp [selectGo, ht, ha]

theorem selectGo_all_late_of_none {d : Nat} :
    ∀ {h : List Commit}, selectGo d h = none → ∀ c ∈ h, d < c.day := by
  intro h
  induction h with
  | nil => intro _ c hc; simp at hc
  | cons a t ih =>
    intro hn c hc
    simp only [selectGo] at hn
    cases ht : selectGo d t with
    | some q => rw [ht] at hn; cases hn
    | none =>
      rw [ht] at hn
      by_cases hd : a.day ≤ d
      · simp [hd] at hn
      · rcases List.mem_cons.1 hc with rfl | hmem
        · exact Nat.lt_of_not_le hd
        · exact ih ht c hmem

theorem selectGo_isSome {d : Nat} {h : List Commit} {c : Commit}
    (hc : c ∈ h) (hd : c.day ≤ d) : (selectGo d h).isSome := by
  cases hs : selectGo d h with
  | some q => rfl
  | none => exact absurd hd (Nat.not_le_of_lt (selectGo_all_late_of_none hs c hc))

theorem selectGo_split {d : Nat} :
    ∀ {h : List Commit} {k : Nat} {c : Commit},
      selectGo d h = some (k, c) →
        ∃ pre post, h = pre ++ c :: post ∧ k = pre.length + 1 ∧
          ∀ c' ∈ post, d < c'.day := by
  intro h
  induction h with
  | nil => intro k c hc; simp [selectGo] at hc
  | cons a t ih =>
    intro k c hc
    simp only [selectGo] at hc
    cases ht : selectGo d t with
    | some q =>
      rw [ht] at hc
      cases hc
      obtain ⟨pre, post, hsplit, hk, hpost⟩ := ih ht
      exact ⟨a :: pre, post, by simp [hsplit], by simp [hk], hpost⟩
    | none =>
      rw [ht] at hc
      by_cases hd : a.day ≤ d
      · simp [hd] at hc
        obtain ⟨hk, hac⟩ := hc
        subst hac
        exact ⟨[], t, by simp, hk.symm, selectGo_all_late_of_none ht⟩
      · simp [hd] at hc

/-!  Helper lemmas about the per-repository loop and `compute_day`. -/

theorem repoEntries_nil {d : Nat} :
    ∀ {repos : List RepoDef},
      (∀ r ∈ repos, ∀ h, r.hist = some h → selectGo d h = none) →
        repoEntries d repos = [] := by
  intro repos
  induction repos with
  | nil => intro _; rfl
  | cons r rs ih =>
    intro hall
    have hrest : repoEntries d rs = [] :=
      ih (fun r' hr' => hall r' (List.mem_cons_of_mem _ hr'))
    cases hh : r.hist with
    | none => simp [repoEntries, hh, hrest]
    | some h =>
      have := hall r (List.mem_cons_self _ _) h hh
      simp [repoEntries, hh, this, hrest]

theorem mem_repoEntries {d : Nat} {r : RepoDef} {h : List Commit}
    {k : Nat} {c : Commit} :
    ∀ {repos : List RepoDef}, r ∈ repos → r.hist = some h →
      selectGo d h = some (k, c) →
        (⟨r.name, k, count_loc_repo c r.dirs r.exts⟩ : RepoEntry) ∈
          repoEntries d repos := by
  intro repos
  induction repos with
  | nil => intro hr; simp at hr
  | cons r₀ rs ih =>
    intro hr hh hs
    rcases List.mem_cons.1 hr with rfl | hmem
    · simp [repoEntries, hh, hs]
    · have hrec := ih hmem hh hs
      cases hh₀ : r₀.hist with
      | none => simpa [repoEntries, hh₀] using hrec
      | some h₀ =>
        cases hs₀ : selectGo d h₀ with
        | none => simpa [repoEntries, hh₀, hs₀] using hrec
        | some q =>
          simp [repoEntries, hh₀, hs₀]
          exact Or.inr hrec

theorem compute_day_date {repos : List RepoDef} {d : Nat} {e : Entry}
    (he : compute_day repos d = some e) : e.date = d := by
  unfold compute_day at he
  by_cases hnil : (repoEntries d repos).isEmpty
  · simp [hnil] at he
  · simp [hnil] at he
    cases he
    rfl

theorem compute_day_none {repos : List RepoDef} {d : Nat}
    (hall : ∀ r ∈ repos, ∀ h, r.hist = some h → selectGo d h = none) :
    compute_day repos d = none := by
  unfold compute_day
  simp [repoEntries_nil hall]

theorem compute_day_isSome {repos : List RepoDef} {d : Nat} {r : RepoDef}
    {h : List Commit} {c : Commit} (hr : r ∈ repos) (hh : r.hist = some h)
    (hc : c ∈ h) (hd : c.day ≤ d) : (compute_day repos d).isSome := by
  cases hs : selectGo d h with
  | none => exact absurd hd (Nat.not_le_of_lt (selectGo_all_late_of_none hs c hc))
  | some q =>
    obtain ⟨k, c'⟩ := q
    have hmem := mem_repoEntries hr hh hs
    unfold compute_day
    have : ¬ (repoEntries d repos).isEmpty := by
      intro hempty
      rw [List.isEmpty_iff] at hempty
      rw [hempty] at hmem
      simp at hmem
    simp [this]

theorem compute_day_mem {repos : List RepoDef} {d : Nat} {r : RepoDef}
    {h : List Commit} {k : Nat} {c : Commit} (hr : r ∈ repos)
    (hh : r.hist = some h) (hs : selectGo d h = some (k, c)) :
    ∃ e, compute_day repos d = some e ∧ e.date = d ∧
      (⟨r.name, k, count_loc_repo c r.dirs r.exts⟩ : RepoEntry) ∈ e.repos := by
  have hmem := mem_repoEntries hr hh hs
  have hne : ¬ (repoEntries d repos).isEmpty := by
    intro hempty
    rw [List.isEmpty_iff] at hempty
    rw [hempty] at hmem
    simp at hmem
  refine ⟨⟨d, repoEntries d repos⟩, ?_, rfl, hmem⟩
  unfold compute_day
  simp [hne]

/-!  Helper lemmas about `earliest_first_date`. -/

theorem earliest_none_iff :
    ∀ {repos : List RepoDef},
      earliest_first_date repos = none ↔
        ∀ r ∈ repos, ∀ h, r.hist = some h → h = [] := by
  intro repos
  induction repos with
  | nil => simp [earliest_first_date]
  | cons r rs ih =>
    constructor
    · intro hn r' hr' h hh
      simp only [earliest_first_date] at hn
      rcases List.mem_cons.1 hr' with rfl | hmem
      · cases h with
        | nil => rfl
        | cons c t =>
          rw [hh] at hn
          cases hrest : earliest_first_date rs with
          | none => rw [hrest] at hn; simp at hn
          | some e => rw [hrest] at hn; by_cases hle : c.day ≤ e <;> simp [hle] at hn
      · cases hh' : r.hist with
        | none =>
          rw [hh'] at hn
          exact ih.1 hn r' hmem h hh
        | some h₀ =>
          cases h₀ with
          | nil =>
            rw [hh'] at hn
            exact ih.1 hn r' hmem h hh
          | cons c t =>
            rw [hh'] at hn
            cases hrest : earliest_first_date rs with
            | none => rw [hrest] at hn; simp at hn
            | some e => rw [hrest] at hn; by_cases hle : c.day ≤ e <;> simp [hle] at hn
    · intro hall
      have hrest : earliest_first_date rs = none :=
        ih.2 (fun r' hr' => hall r' (List.mem_cons_of_mem _ hr'))
      simp only [earliest_first_date, hrest]
      cases hh : r.hist with
      | none => rfl
      | some h =>
        cases h with
        | nil => rfl
        | cons c t =>
          have := hall r (List.mem_cons_self _ _) (c :: t) hh
          simp at this

theorem earliest_exists :
    ∀ {repos : List RepoDef} {f : Nat},
      earliest_first_date repos = some f →
        ∃ r ∈ repos, ∃ c t, r.hist = some (c :: t) ∧ c.day = f := by
  intro repos
  induction repos with
  | nil => intro f hf; simp [earliest_first_date] at hf
  | cons r rs ih =>
    intro f hf
    simp only [earliest_first_date] at hf
    cases hh : r.hist with
    | none =>
      rw [hh] at hf
      obtain ⟨r', hr', c, t, hist', hday⟩ := ih hf
      exact ⟨r', List.mem_cons_of_mem _ hr', c, t, hist', hday⟩
    | some h =>
      cases h with
      | nil =>
        rw [hh] at hf
        obtain ⟨r', hr', c, t, hist', hday⟩ := ih hf
        exact ⟨r', List.mem_cons_of_mem _ hr', c, t, hist', hday⟩
      | cons c t =>
        rw [hh] at hf
        cases hrest : earliest_first_date rs with
        | none =>
          rw [hrest] at hf
          cases hf
          exact ⟨r, List.mem_cons_self _ _, c, t, hh, rfl⟩
        | some e =>
          rw [hrest] at hf
          by_cases hle : c.day ≤ e
          · simp [hle] at hf
            exact ⟨r, List.mem_cons_self _ _, c, t, hh, hf⟩
          · simp [hle] at hf
            obtain ⟨r', hr', c', t', hist', hday⟩ := ih hrest
            exact ⟨r', List.mem_cons_of_mem _ hr', c', t', hist', by rw [hday, hf]⟩

/-!  Helper lemmas about the per-day loop. -/

theorem dayLoop_all_cached {repos : List RepoDef} {cached : List Nat} :
    ∀ {ds : List Nat}, (∀ d ∈ ds, d ∈ cached) →
      dayLoop repos cached ds = ([], []) := by
  intro ds
  induction ds with
  | nil => intro _; rfl
  | cons d ds ih =>
    intro hall
    have hd : d ∈ cached := hall d (List.mem_cons_self _ _)
    have hrest := ih (fun d' hd' => hall d' (List.mem_cons_of_mem _ hd'))
    simp [dayLoop, hd, hrest]

theorem dayLoop_all_fresh {repos : List RepoDef} {cached : List Nat} :
    ∀ {ds : List Nat}, (∀ d ∈ ds, d ∉ cached) →
      (∀ d ∈ ds, (compute_day repos d).isSome) →
        (dayLoop repos cached ds).1.map (fun e => e.date) = ds ∧
          (dayLoop repos cached ds).2 = ds := by
  intro ds
  induction ds with
  | nil => intro _ _; exact ⟨rfl, rfl⟩
  | cons d ds ih =>
    intro hfresh hsome
    have hd : d ∉ cached := hfresh d (List.mem_cons_self _ _)
    obtain ⟨ih1, ih2⟩ := ih (fun d' hd' => hfresh d' (List.mem_cons_of_mem _ hd'))
      (fun d' hd' => hsome d' (List.mem_cons_of_mem _ hd'))
    cases hc : compute_day repos d with
    | none =>
      have := hsome d (List.mem_cons_self _ _)
      rw [hc] at this
      simp at this
    | some e =>
      have hdate := compute_day_date hc
      simp [dayLoop, hd, hc, ih1, ih2, hdate]

theorem dayLoop_dates_sublist {repos : List RepoDef} {cached : List Nat} :
    ∀ {ds : List Nat},
      ((dayLoop repos cached ds).1.map (fun e => e.date)).Sublist ds := by
  intro ds
  induction ds with
  | nil => simp [dayLoop]
  | cons d ds ih =>
    by_cases hd : d ∈ cached
    · simp only [dayLoop, if_pos hd]
      exact ih.trans (List.sublist_cons_self _ _)
    · simp only [dayLoop, if_neg hd]
      cases hc : compute_day repos d with
      | none => exact ih.trans (List.sublist_cons_self _ _)
      | some e =>
        have hdate := compute_day_date hc
        simpa [hdate] using List.Sublist.cons₂ d ih

theorem dayLoop_not_cached {repos : List RepoDef} {cached : List Nat} :
    ∀ {ds : List Nat} {e : Entry}, e ∈ (dayLoop repos cached ds).1 →
      e.date ∉ cached := by
  intro ds
  induction ds with
  | nil => intro e he; simp [dayLoop] at he
  | cons d ds ih =>
    intro e he
    by_cases hd : d ∈ cached
    · rw [dayLoop, if_pos hd] at he
      exact ih he
    · rw [dayLoop, if_neg hd] at he
      cases hc : compute_day repos d with
      | none =>
        rw [hc] at he
        exact ih he
      | some e' =>
        rw [hc] at he
        rcases List.mem_cons.1 he with rfl | hmem
        · rw [compute_day_date hc]; exact hd
        · exact ih hmem

/-!  Helper lemmas about the day range and the final sort. -/

theorem mem_daysFromTo {a b d : Nat} (hab : a ≤ b) :
    d ∈ daysFromTo a b ↔ a ≤ d ∧ d ≤ b := by
  unfold daysFromTo
  rw [List.mem_range'_1]
  omega

theorem daysFromTo_sorted_lt (a b : Nat) :
    (daysFromTo a b).Sorted (· < ·) := by
  unfold daysFromTo
  exact List.pairwise_lt_range' a (b + 1 - a)

theorem daysFromTo_nodup (a b : Nat) : (daysFromTo a b).Nodup :=
  (daysFromTo_sorted_lt a b).imp (fun h => Nat.ne_of_lt h)

theorem sortEntries_perm (es : List Entry) : List.Perm (sortEntries es) es :=
  List.perm_insertionSort entryLE es

theorem sortEntries_sorted (es : List Entry) :
    List.Sorted entryLE (sortEntries es) :=
  List.sorted_insertionSort entryLE es

theorem sortEntries_eq_of_sorted {es : List Entry}
    (h : List.Sorted entryLE es) : sortEntries es = es :=
  h.insertionSort_eq

theorem sorted_entryLE_of_dates_lt {es : List Entry}
    (h : (es.map (fun e => e.date)).Sorted (· < ·)) :
    List.Sorted entryLE es := by
  rw [List.Sorted, List.pairwise_map] at h
  exact h.imp (fun hlt => Nat.le_of_lt hlt)

theorem sorted_dates_of_sorted {es : List Entry}
    (h : List.Sorted entryLE es) :
    (es.map (fun e => e.date)).Sorted (· ≤ ·) := by
  rw [List.Sorted, List.pairwise_map]
  exact h

/-!  Helper lemmas about the write model. -/

theorem appendStates_mem_append {acc : List String} :
    ∀ {ls : List String} {s : List String}, s ∈ appendStates acc ls →
      ∃ pre post, ls = pre ++ post ∧ s = acc ++ pre := by
  intro ls
  induction ls generalizing acc with
  | nil => intro s hs; simp [appendStates] at hs
  | cons l ls ih =>
    intro s hs
    rcases List.mem_cons.1 hs with rfl | hmem
    · exact ⟨[l], ls, rfl, rfl⟩
    · obtain ⟨pre, post, hsplit, hacc⟩ := ih hmem
      exact ⟨l :: pre, post, by simp [hsplit], by simp [hacc]⟩

theorem appendStates_getLast {acc : List String} :
    ∀ {ls : List String}, ls ≠ [] →
      (appendStates acc ls).getLast? = some (acc ++ ls) := by
  intro ls
  induction ls generalizing acc with
  | nil => intro h; exact absurd rfl h
  | cons l ls ih =>
    intro _
    cases ls with
    | nil => simp [appendStates]
    | cons l' ls' =>
      have hrec := @ih (acc ++ [l]) (by simp)
      have h1 : appendStates acc (l :: l' :: ls') =
          (acc ++ [l]) :: appendStates (acc ++ [l]) (l' :: ls') := rfl
      have h2 : appendStates (acc ++ [l]) (l' :: ls') =
          (acc ++ [l] ++ [l']) :: appendStates (acc ++ [l] ++ [l']) ls' := rfl
      rw [h1, h2, List.getLast?_cons_cons, ← h2, hrec]
      simp

/-!  Reduction lemmas for the two run modes. -/

theorem runSeed_some (repos : List RepoDef) (today : Nat)
    (existing : List Entry) {f : Nat}
    (hf : earliest_first_date repos = some f) :
    runSeed repos today existing =
      some (sortEntries (existing ++
          (dayLoop repos (existing.map (fun e => e.date))
            (daysFromTo f today)).1),
        (dayLoop repos (existing.map (fun e => e.date))
          (daysFromTo f today)).2) := by
  unfold runSeed
  rw [hf]

theorem runSeed_none_of (repos : List RepoDef) (today : Nat)
    (existing : List Entry) (hf : earliest_first_date repos = none) :
    runSeed repos today existing = none := by
  unfold runSeed
  rw [hf]

theorem runInc_last (repos : List RepoDef) (today : Nat) {es : List Entry}
    {lastE : Entry} (h : es.getLast? = some lastE) :
    runInc repos today es =
      (sortEntries (es.dropLast ++
          (dayLoop repos ((es.map (fun e => e.date)).erase lastE.date)
            (daysFromTo lastE.date today)).1),
        (dayLoop repos ((es.map (fun e => e.date)).erase lastE.date)
          (daysFromTo lastE.date today)).2) := by
  unfold runInc
  rw [h]

theorem runInc_empty (repos : List RepoDef) (today : Nat) {es : List Entry}
    (h : es.getLast? = none) :
    runInc repos today es =
      (sortEntries (dayLoop repos [] (daysFromTo today today)).1,
        (dayLoop repos [] (daysFromTo today today)).2) := by
  unfold runInc
  rw [h]

/-!  Concrete repository states used to instantiate the theorems. -/

/-- A repository with a single commit on day 0 touching one 3-line
markdown file. -/
def exRepoA : RepoDef :=
  ⟨"r", [], ["md"], some [⟨0, [("a.md", 3)]⟩]⟩

/-- The snapshot `exRepoA` yields on any day ≥ 0. -/
def exEntry (d : Nat) : Entry :=
  ⟨d, [⟨"r", 1, 3⟩]⟩

/-- A repository whose only commit is on day 5. -/
def exRepoLate : RepoDef :=
  ⟨"r", [], ["md"], some [⟨5, [("a.md", 3)]⟩]⟩

/-- A repository directory that is not a git checkout. -/
def exRepoNoGit : RepoDef :=
  ⟨"r", [], ["md"], none⟩

/-- A repository whose only commit tracks no file matching the `md`
extension filter. -/
def exRepoNoMatch : RepoDef :=
  ⟨"r", [], ["md"], some [⟨0, [("a.ts", 5)]⟩]⟩

/-- The three-commit history of the spec's `compute_day` example, with
day 0 standing for 2024-01-01, day 2 for 2024-01-03 and day 4 for
2024-01-05; the tracked file grows between commits. -/
def exHistC3 : List Commit :=
  [⟨0, [("a.md", 10)]⟩, ⟨2, [("a.md", 20)]⟩, ⟨4, [("a.md", 30)]⟩]

/-- The repository holding `exHistC3`. -/
def exRepoC3 : RepoDef :=
  ⟨"r", [], ["md"], some exHistC3⟩

/-- Does a repository have at least one commit at or before day `d`?
(`[ -d .git ]` succeeds and `git rev-list -1 --before` is non-empty.) -/
def repoHasCommitBy (r : RepoDef) (d : Nat) : Bool :=
  (r.hist.getD []).any (fun c => c.day ≤ d)

/-!  Claim theorems. -/

/-- C3: `compute_day(d)` selects, per repository, the most recent commit
at or before `d 23:59:59` and reports that commit's cumulative totals:
the selected commit is the latest one in the history whose day is ≤ d
(every later commit is strictly after `d`), and the reported commit
count is the number of commits reachable from it (its position plus
one).  In particular, for a repository with commits on 2024-01-01,
2024-01-03 and 2024-01-05, `compute_day` on 2024-01-02 uses the
2024-01-01 commit and reports its count (1) and its line count (10),
not the 2024-01-03 commit's (2 and 20). -/
theorem C3_most_recent_commit :
    (∀ (d : Nat) (h : List Commit) (k : Nat) (c : Commit),
      selectGo d h = some (k, c) →
        c.day ≤ d ∧
        ∃ pre post, h = pre ++ c :: post ∧ k = pre.length + 1 ∧
          ∀ c' ∈ post, d < c'.day) ∧
    compute_day [exRepoC3] 1 = some ⟨1, [⟨"r", 1, 10⟩]⟩ := by
  constructor
  · intro d h k c hs
    exact ⟨selectGo_day_le hs, selectGo_split hs⟩
  · decide

/-- Witness for C3 at the spec's concrete history: querying day 1
(2024-01-02) selects the day-0 commit with reachable count 1. -/
theorem C3_most_recent_commit_witness :
    (⟨0, [("a.md", 10)]⟩ : Commit).day ≤ 1 ∧
    ∃ pre post, exHistC3 = pre ++ (⟨0, [("a.md", 10)]⟩ : Commit) :: post ∧
      1 = pre.length + 1 ∧ ∀ c' ∈ post, 1 < c'.day :=
  C3_most_recent_commit.1 1 exHistC3 1 ⟨0, [("a.md", 10)]⟩ (by decide)

/-- C5: on a date `d` by which no configured repository has any commit,
`compute_day` yields no snapshot (the function returns failure and the
caller appends nothing). -/
theorem C5_no_snapshot (repos : List RepoDef) (d : Nat)
    (hall : ∀ r ∈ repos, repoHasCommitBy r d = false) :
    compute_day repos d = none := by
  refine compute_day_none (fun r hr h hh => selectGo_none_of_all_late ?_)
  intro c hc
  have hfalse := hall r hr
  rw [repoHasCommitBy, hh, Option.getD_some, List.any_eq_false] at hfalse
  have hcd := hfalse c hc
  simp only [decide_eq_true_eq] at hcd
  omega

/-- Witness for C5: day 2 precedes `exRepoLate`'s first commit (day 5),
so the day yields no snapshot. -/
theorem C5_no_snapshot_witness : compute_day [exRepoLate] 2 = none :=
  C5_no_snapshot [exRepoLate] 2 (by decide)

/-- C8: the seed run succeeds (exit 0 and a final write) exactly when
some configured repository has commit history; when none has, it exits
non-zero and the metrics file keeps its previous contents. -/
theorem C8_seed_failure (repos : List RepoDef) (today : Nat)
    (old : List String) (existing : List Entry) :
    (runSeed repos today existing = none ↔
      ∀ r ∈ repos, r.hist.getD [] = []) ∧
    (runSeed repos today existing = none →
      seedFileStates repos today old existing = [old]) := by
  have hiff : runSeed repos today existing = none ↔
      earliest_first_date repos = none := by
    unfold runSeed
    cases he : earliest_first_date repos with
    | none => simp
    | some f => simp
  constructor
  · rw [hiff]
    constructor
    · intro hn r hr
      have := earliest_none_iff.1 hn r hr
      cases hh : r.hist with
      | none => rfl
      | some h => simpa [hh] using this h hh
    · intro hall
      refine earliest_none_iff.2 (fun r hr h hh => ?_)
      have := hall r hr
      rwa [hh, Option.getD_some] at this
  · intro hn
    unfold seedFileStates
    rw [hn]

/-- Witness for C8: with the only configured directory not a git
checkout, the seed run fails and the file trace is just the old
contents. -/
theorem C8_seed_failure_witness :
    runSeed [exRepoNoGit] 5 [] = none ∧
    seedFileStates [exRepoNoGit] 5 ["[", "]"] [] = [["[", "]"]] := by
  have h := C8_seed_failure [exRepoNoGit] 5 ["[", "]"] []
  have hn : runSeed [exRepoNoGit] 5 [] = none := h.1.mpr (by decide)
  exact ⟨hn, h.2 hn⟩

/-- C9: a repository that has a commit by day `d` but none of whose
tracked files at that commit pass its scope and extension filters is
still included in the day's mapping, with its commit count and a line
count of 0. -/
theorem C9_zero_loc_included (repos : List RepoDef) (d : Nat)
    (r : RepoDef) (h : List Commit) (k : Nat) (c : Commit)
    (hr : r ∈ repos) (hh : r.hist = some h)
    (hs : selectGo d h = some (k, c))
    (hloc : count_loc_repo c r.dirs r.exts = 0) :
    ∃ e, compute_day repos d = some e ∧
      (⟨r.name, k, 0⟩ : RepoEntry) ∈ e.repos := by
  obtain ⟨e, he, _, hmem⟩ := compute_day_mem hr hh hs
  rw [hloc] at hmem
  exact ⟨e, he, hmem⟩

/-- Witness for C9: `exRepoNoMatch` has a day-0 commit whose only file
fails the `md` filter; it still appears with commit count 1 and loc 0. -/
theorem C9_zero_loc_included_witness :
    ∃ e, compute_day [exRepoNoMatch] 0 = some e ∧
      (⟨"r", 1, 0⟩ : RepoEntry) ∈ e.repos :=
  C9_zero_loc_included [exRepoNoMatch] 0 exRepoNoMatch [⟨0, [("a.ts", 5)]⟩]
    1 ⟨0, [("a.ts", 5)]⟩ (by decide) (by decide) (by decide) (by decide)

/-- C10: `handleVisit` always produces a response: status 500 with a
JSON `error` body when the request body is not valid JSON, when the
upstream call rejects, or when the upstream responds non-ok; and status
200 with body `{"ok":true}` exactly when the body parses and the
upstream call responds ok. -/
theorem C10_handleVisit_total (parsed : Except String VisitBody)
    (cf : CFInfo) (regionOf : String → Option String)
    (upstream : Row → Except String UpstreamResult) :
    ((handleVisit parsed cf regionOf upstream).status = 200 ∨
      (handleVisit parsed cf regionOf upstream).status = 500) ∧
    (∀ m, parsed = .error m →
      handleVisit parsed cf regionOf upstream = ⟨500, .jsonError m⟩) ∧
    (∀ b res, parsed = .ok b →
      upstream (buildRow b cf regionOf) = .ok res → res.ok = false →
        handleVisit parsed cf regionOf upstream =
          ⟨500, .jsonError res.text⟩) ∧
    (∀ b m, parsed = .ok b →
      upstream (buildRow b cf regionOf) = .error m →
        handleVisit parsed cf regionOf upstream = ⟨500, .jsonError m⟩) ∧
    (handleVisit parsed cf regionOf upstream = ⟨200, .jsonOk⟩ ↔
      ∃ b res, parsed = .ok b ∧
        upstream (buildRow b cf regionOf) = .ok res ∧ res.ok = true) := by
  refine ⟨?_, ?_, ?_, ?_, ?_⟩
  · cases parsed with
    | error m => exact Or.inr rfl
    | ok b =>
      cases hup : upstream (buildRow b cf regionOf) with
      | error m => exact Or.inr (by simp [handleVisit, hup])
      | ok res =>
        by_cases hok : res.ok
        · exact Or.inl (by simp [handleVisit, hup, hok])
        · exact Or.inr (by simp [handleVisit, hup, hok])
  · intro m hm
    subst hm
    rfl
  · intro b res hb hup hok
    subst hb
    simp [handleVisit, hup, hok]
  · intro b m hb hup
    subst hb
    simp [handleVisit, hup]
  · constructor
    · intro hresp
      cases parsed with
      | error m => simp [handleVisit] at hresp
      | ok b =>
        cases hup : upstream (buildRow b cf regionOf) with
        | error m => simp [handleVisit, hup] at hresp
        | ok res =>
          by_cases hok : res.ok
          · exact ⟨b, res, rfl, hup, hok⟩
          · simp [handleVisit, hup, hok] at hresp
    · rintro ⟨b, res, rfl, hup, hok⟩
      simp [handleVisit, hup, hok]

/-- C4: from an empty (or absent) series file, a seed run produces a
series whose first entry's date is the earliest first-commit day across
the configured repositories, with one entry for every calendar day from
that day through today and no gaps. -/
theorem C4_seed_coverage (repos : List RepoDef) (today f : Nat)
    (hf : earliest_first_date repos = some f) (hft : f ≤ today) :
    ∃ out comp, runSeed repos today [] = some (out, comp) ∧
      out.map (fun e => e.date) = daysFromTo f today ∧
      (out.map (fun e => e.date)).head? = some f := by
  obtain ⟨r, hr, c, t, hh, hday⟩ := earliest_exists hf
  have hsome : ∀ d ∈ daysFromTo f today, (compute_day repos d).isSome := by
    intro d hd
    have hfd : f ≤ d := ((mem_daysFromTo hft).1 hd).1
    exact compute_day_isSome hr hh (List.mem_cons_self _ _) (by omega)
  have hfresh : ∀ d ∈ daysFromTo f today, d ∉ ([] : List Nat) := by
    simp
  obtain ⟨hmap, hcomp⟩ := dayLoop_all_fresh hfresh hsome
  refine ⟨(dayLoop repos [] (daysFromTo f today)).1,
    (dayLoop repos [] (daysFromTo f today)).2, ?_, hmap, ?_⟩
  · rw [runSeed_some repos today [] hf]
    have hst : List.Sorted entryLE (dayLoop repos [] (daysFromTo f today)).1 := by
      apply sorted_entryLE_of_dates_lt
      rw [hmap]
      exact daysFromTo_sorted_lt f today
    simp only [List.map_nil, List.nil_append]
    rw [sortEntries_eq_of_sorted hst]
  · rw [hmap]
    unfold daysFromTo
    have h1 : today + 1 - f = (today - f) + 1 := by omega
    rw [h1]
    simp [List.range']

/-- Witness for C4: seeding `exRepoA` (first commit day 0) with today = 1
covers days 0 and 1. -/
theorem C4_seed_coverage_witness :
    ∃ out comp, runSeed [exRepoA] 1 [] = some (out, comp) ∧
      out.map (fun e => e.date) = daysFromTo 0 1 ∧
      (out.map (fun e => e.date)).head? = some 0 :=
  C4_seed_coverage [exRepoA] 1 0 (by decide) (by decide)

/-- C1 (amended): re-running the aggregator on the same repository states
gives byte-for-byte the same series.  In incremental mode the most recent
stored day is always recomputed (the trace of recomputed days is exactly
`[today]`) and its recomputation reproduces the stored entry; in seed
mode every cached day — the most recent included — is reused, so nothing
is recomputed (the trace is empty) and the series is returned unchanged.
The hypotheses state that the loaded series is a previous run's output on
the same repository states: dates strictly ascending, last date = today,
and every entry equal to its own recomputation. -/
theorem C1_rerun_stable (repos : List RepoDef) (today : Nat)
    (es : List Entry) (lastE : Entry)
    (hsorted : (es.map (fun e => e.date)).Sorted (· < ·))
    (hlast : es.getLast? = some lastE) (hlastd : lastE.date = today)
    (hstable : ∀ e ∈ es, compute_day repos e.date = some e) :
    runInc repos today es = (es, [today]) ∧
      ∀ f, earliest_first_date repos = some f →
        es.map (fun e => e.date) = daysFromTo f today →
          runSeed repos today es = some (es, []) := by
  have hne : es ≠ [] := by
    intro h
    rw [h] at hlast
    cases hlast
  have hlastval : es.getLast hne = lastE := by
    have := List.getLast?_eq_getLast es hne
    rw [this] at hlast
    exact Option.some.inj hlast
  have hdec : es.dropLast ++ [lastE] = es := by
    rw [← hlastval]
    exact List.dropLast_append_getLast hne
  have hmem_last : lastE ∈ es := by
    rw [← hdec]
    exact List.mem_append_right _ (List.mem_singleton.2 rfl)
  have hmapdec : es.map (fun e => e.date) =
      es.dropLast.map (fun e => e.date) ++ [today] := by
    conv_lhs => rw [← hdec]
    simp [hlastd]
  have hfront : ∀ x ∈ es.dropLast.map (fun e => e.date), x < today := by
    have hs := hsorted
    rw [hmapdec, List.Sorted, List.pairwise_append] at hs
    intro x hx
    exact hs.2.2 x hx today (List.mem_singleton.2 rfl)
  have hnotmem : today ∉ es.dropLast.map (fun e => e.date) := by
    intro h
    exact absurd (hfront _ h) (lt_irrefl _)
  have hcached : (es.map (fun e => e.date)).erase lastE.date =
      es.dropLast.map (fun e => e.date) := by
    rw [hlastd, hmapdec, List.erase_append_right _ hnotmem,
      List.erase_cons_head, List.append_nil]
  have hsortedLE : List.Sorted entryLE es := sorted_entryLE_of_dates_lt hsorted
  constructor
  · rw [runInc_last repos today hlast]
    have hdays : daysFromTo lastE.date today = [today] := by
      rw [hlastd]
      unfold daysFromTo
      simp [List.range'_one]
    rw [hdays, hcached]
    have hcd : compute_day repos today = some lastE := by
      have := hstable lastE hmem_last
      rwa [hlastd] at this
    have hnotmem' : today ∉ (es.map (fun e => e.date)).dropLast := by
      rw [← List.map_dropLast]
      exact hnotmem
    have hloop : dayLoop repos (es.dropLast.map (fun e => e.date)) [today] =
        ([lastE], [today]) := by
      simp [dayLoop, hnotmem, hnotmem', hcd]
    rw [hloop]
    simp only []
    rw [hdec, sortEntries_eq_of_sorted hsortedLE]
  · intro f hf hdates
    rw [runSeed_some repos today es hf]
    have hall : ∀ d ∈ daysFromTo f today, d ∈ es.map (fun e => e.date) := by
      intro d hd
      rw [hdates]
      exact hd
    rw [dayLoop_all_cached hall]
    simp [sortEntries_eq_of_sorted hsortedLE]

/-- Witness for C1 (amended), on `exRepoA` with today = 1 and the series
a previous run produced: the incremental rerun returns it unchanged with
exactly day 1 recomputed, and the seed rerun returns it unchanged with
nothing recomputed. -/
theorem C1_rerun_stable_witness :
    runInc [exRepoA] 1 [exEntry 0, exEntry 1] =
      ([exEntry 0, exEntry 1], [1]) ∧
    runSeed [exRepoA] 1 [exEntry 0, exEntry 1] =
      some ([exEntry 0, exEntry 1], []) := by
  have h := C1_rerun_stable [exRepoA] 1 [exEntry 0, exEntry 1] (exEntry 1)
    (by decide) (by decide) (by decide) (by decide)
  exact ⟨h.1, h.2 0 (by decide) (by decide)⟩

/-- Counterexample for C1 as stated: in seed mode the most recent day is
NOT always recomputed.  With `exRepoA`'s state unchanged and today = 1, a
seed rerun over a file already containing days 0 and 1 reuses every
cached day: the trace of days for which `compute_day` ran is empty, so
the most recent day (1) was served from cache, not recomputed. -/
theorem C1_counterexample :
    runSeed [exRepoA] 1 [exEntry 0, exEntry 1] =
      some ([exEntry 0, exEntry 1], []) ∧
    ∀ p ∈ (runSeed [exRepoA] 1 [exEntry 0, exEntry 1]).toList, 1 ∉ p.2 := by
  decide

/-- Dates of a sorted `prior ++ new-days` series stay duplicate-free when
the prior dates are duplicate-free, the walked days are duplicate-free,
and every prior date is in the cache lookup (so the loop never recomputes
it). -/
theorem nodup_dates_sort_append (repos : List RepoDef) {cached : List Nat}
    {prior : List Entry} {ds : List Nat}
    (hprior : (prior.map (fun e => e.date)).Nodup) (hds : ds.Nodup)
    (hsub : ∀ x ∈ prior.map (fun e => e.date), x ∈ cached) :
    ((sortEntries (prior ++ (dayLoop repos cached ds).1)).map
      (fun e => e.date)).Nodup := by
  have hperm := (sortEntries_perm (prior ++ (dayLoop repos cached ds).1)).map
    (fun e => e.date)
  rw [hperm.nodup_iff, List.map_append, List.nodup_append]
  refine ⟨hprior, hds.sublist dayLoop_dates_sublist, ?_⟩
  intro a ha hb
  obtain ⟨e, he, hdate⟩ := List.mem_map.1 hb
  have := dayLoop_not_cached he
  rw [hdate] at this
  exact this (hsub a ha)

/-- C2 (amended): after either mode's run the persisted series is sorted
by date in nondecreasing order, and it has no duplicate dates provided
the prior file had none.  (A prior file that already contains duplicate
dates can carry them into the output — see the counterexample.) -/
theorem C2_sorted_nodup (repos : List RepoDef) (today : Nat)
    (es : List Entry) :
    ((runInc repos today es).1.map (fun e => e.date)).Sorted (· ≤ ·) ∧
    ((es.map (fun e => e.date)).Nodup →
      ((runInc repos today es).1.map (fun e => e.date)).Nodup) ∧
    ∀ out comp, runSeed repos today es = some (out, comp) →
      (out.map (fun e => e.date)).Sorted (· ≤ ·) ∧
      ((es.map (fun e => e.date)).Nodup →
        (out.map (fun e => e.date)).Nodup) := by
  refine ⟨?_, ?_, ?_⟩
  · cases hes : es.getLast? with
    | none =>
      rw [runInc_empty repos today hes]
      exact sorted_dates_of_sorted (sortEntries_sorted _)
    | some lastE =>
      rw [runInc_last repos today hes]
      exact sorted_dates_of_sorted (sortEntries_sorted _)
  · intro hnd
    cases hes : es.getLast? with
    | none =>
      rw [runInc_empty repos today hes]
      have := @nodup_dates_sort_append repos [] [] (daysFromTo today today)
        (by simp) (daysFromTo_nodup today today) (by simp)
      simpa using this
    | some lastE =>
      rw [runInc_last repos today hes]
      have hne : es ≠ [] := by
        intro h
        rw [h] at hes
        cases hes
      have hlastval : es.getLast hne = lastE := by
        have := List.getLast?_eq_getLast es hne
        rw [this] at hes
        exact Option.some.inj hes
      have hdec : es.dropLast ++ [lastE] = es := by
        rw [← hlastval]
        exact List.dropLast_append_getLast hne
      have hmapdec : es.map (fun e => e.date) =
          es.dropLast.map (fun e => e.date) ++ [lastE.date] := by
        conv_lhs => rw [← hdec]
        simp
      have hprior : (es.dropLast.map (fun e => e.date)).Nodup := by
        rw [hmapdec, List.nodup_append] at hnd
        exact hnd.1
      have hnotmem : lastE.date ∉ es.dropLast.map (fun e => e.date) := by
        rw [hmapdec, List.nodup_append] at hnd
        intro h
        exact hnd.2.2 h (List.mem_singleton.2 rfl)
      have hcached : (es.map (fun e => e.date)).erase lastE.date =
          es.dropLast.map (fun e => e.date) := by
        rw [hmapdec, List.erase_append_right _ hnotmem,
          List.erase_cons_head, List.append_nil]
      rw [hcached]
      exact nodup_dates_sort_append repos hprior
        (daysFromTo_nodup lastE.date today) (fun x hx => hx)
  · intro out comp hsome
    cases hf : earliest_first_date repos with
    | none =>
      rw [runSeed_none_of repos today es hf] at hsome
      cases hsome
    | some f =>
      rw [runSeed_some repos today es hf] at hsome
      injection hsome with hpair
      injection hpair with hout hcomp
      subst hout
      refine ⟨sorted_dates_of_sorted (sortEntries_sorted _), fun hnd => ?_⟩
      exact nodup_dates_sort_append repos hnd
        (daysFromTo_nodup f today) (fun x hx => hx)

/-- Witness for C2 (amended): a clean incremental run on a
duplicate-free file keeps the dates sorted and duplicate-free. -/
theorem C2_sorted_nodup_witness :
    ((runInc [exRepoA] 1 [exEntry 0]).1.map (fun e => e.date)).Sorted
        (· ≤ ·) ∧
      ((runInc [exRepoA] 1 [exEntry 0]).1.map (fun e => e.date)).Nodup := by
  have h := C2_sorted_nodup [exRepoA] 1 [exEntry 0]
  exact ⟨h.1, h.2.1 (by decide)⟩

/-- Counterexample for C2 as stated: the invariant does not hold for ALL
prior file contents.  A prior file with two entries dated day 5 (and a
last entry dated day 7) passes through an incremental run intact: both
day-5 entries appear in the output, so the persisted series has a
duplicate date. -/
theorem C2_counterexample :
    ((runInc [exRepoA] 7 [exEntry 5, exEntry 5, exEntry 7]).1.map
      (fun e => e.date)) = [5, 5, 7] ∧
    ¬ ((runInc [exRepoA] 7 [exEntry 5, exEntry 5, exEntry 7]).1.map
      (fun e => e.date)).Nodup := by
  decide

/-- Folding `total=$((total + lines))` over a file list equals the start
value plus the sum of the line counts. -/
theorem foldl_add_snd (l : List (String × Nat)) :
    ∀ n, l.foldl (fun t f => t + f.2) n = n + (l.map (fun f => f.2)).sum := by
  induction l with
  | nil => intro n; simp
  | cons f fs ih =>
    intro n
    simp only [List.foldl_cons, List.map_cons, List.sum_cons]
    rw [ih]
    omega

/-- The claim's reading of the empty-scope case, stated in its words:
the line count is computed over every tracked file at the selected
commit, with no filter at all. -/
def claimAllTrackedLoc (c : Commit) : Nat :=
  (c.files.map (fun f => f.2)).sum

/-- A commit tracking a 5-line TypeScript file and a 2-line markdown
file. -/
def exCommitC6 : Commit :=
  ⟨0, [("a.ts", 5), ("b.md", 2)]⟩

/-- A commit with `.ts` files inside and outside `src/` and a non-`.ts`
file inside `src/`. -/
def exCommitScoped : Commit :=
  ⟨0, [("src/a.ts", 5), ("src/b.md", 2), ("lib/c.ts", 7)]⟩

/-- Counterexample for C6 as stated: a repository with an empty scope
filter does NOT have its line count computed over every tracked file —
the extension filter still applies.  On a commit tracking `a.ts` (5
lines) and `b.md` (2 lines), the code with empty scope and extension
filter `md` counts 2, not the 7 the claim's "every tracked file"
prescribes. -/
theorem C6_counterexample :
    count_loc_repo exCommitC6 [] ["md"] = 2 ∧
    claimAllTrackedLoc exCommitC6 = 7 ∧
    count_loc_repo exCommitC6 [] ["md"] ≠ claimAllTrackedLoc exCommitC6 := by
  decide

/-- C6 (amended): a repository configured with an empty scope filter has
its line count computed over every tracked file that matches its
extension filter (the scope imposes no restriction); one configured with
scope `src/` and extension `ts` counts exactly the `.ts` files under
`src/`. -/
theorem C6_scope_semantics (c : Commit) (exts : List String) :
    count_loc_repo c [] exts =
      ((c.files.filter (fun f =>
        decide (∃ e ∈ exts, ('.' :: e.data) <:+ f.1.data))).map
        (fun f => f.2)).sum ∧
    count_loc_repo c ["src/"] ["ts"] =
      ((c.files.filter (fun f =>
        decide ("src/".data <+: f.1.data ∧ ('.' :: "ts".data) <:+ f.1.data))).map
        (fun f => f.2)).sum := by
  constructor
  · have hls : lsFiles c [] exts =
        c.files.filter (fun f => extMatch exts f.1) := rfl
    unfold count_loc_repo
    rw [hls, foldl_add_snd, Nat.zero_add]
    congr 1
    congr 1
    apply List.filter_congr
    intro f _
    rw [extMatch]
    rcases hdec : decide (∃ e ∈ exts, ('.' :: e.data) <:+ f.1.data) with _ | _
    · rw [List.any_eq_false]
      intro e he
      simp only [Bool.not_eq_true]
      rcases hsuf : ('.' :: e.data).isSuffixOf f.1.data with _ | _
      · rfl
      · have := List.isSuffixOf_iff_suffix.1 hsuf
        have hex := of_decide_eq_false hdec
        exact absurd ⟨e, he, this⟩ hex
    · rw [List.any_eq_true]
      obtain ⟨e, he, hsuf⟩ := of_decide_eq_true hdec
      exact ⟨e, he, List.isSuffixOf_iff_suffix.2 hsuf⟩
  · have hls : lsFiles c ["src/"] ["ts"] =
        c.files.filter (fun f =>
          dirMatch ["src/"] f.1 && extMatch ["ts"] f.1) := rfl
    unfold count_loc_repo
    rw [hls, foldl_add_snd, Nat.zero_add]
    congr 1
    congr 1
    apply List.filter_congr
    intro f _
    rw [dirMatch, extMatch]
    simp only [List.any_cons, List.any_nil, Bool.or_false]
    rcases hdec : decide ("src/".data <+: f.1.data ∧
        ('.' :: "ts".data) <:+ f.1.data) with _ | _
    · have hnot := of_decide_eq_false hdec
      rcases hpre : "src/".data.isPrefixOf f.1.data with _ | _
      · rfl
      · rcases hsuf : ('.' :: "ts".data).isSuffixOf f.1.data with _ | _
        · rfl
        · exact absurd ⟨List.isPrefixOf_iff_prefix.1 hpre,
            List.isSuffixOf_iff_suffix.1 hsuf⟩ hnot
    · obtain ⟨hpre, hsuf⟩ := of_decide_eq_true hdec
      rw [List.isPrefixOf_iff_prefix.2 hpre, List.isSuffixOf_iff_suffix.2 hsuf]
      rfl

/-- Witness for C6 (amended) at `exCommitScoped`: empty scope with the
`ts` filter counts both `.ts` files (12 lines); scope `src/` with `ts`
counts only `src/a.ts` (5 lines). -/
theorem C6_scope_semantics_witness :
    count_loc_repo exCommitScoped [] ["ts"] = 12 ∧
    count_loc_repo exCommitScoped ["src/"] ["ts"] = 5 := by
  have h := C6_scope_semantics exCommitScoped ["ts"]
  constructor
  · rw [h.1]
    decide
  · rw [h.2]
    decide

/-- Counterexample for C7 as stated: the final write is not an atomic
whole-file replacement.  Writing the two-entry series over a previous
one-entry file passes through the intermediate state `["["]` — the `>`
redirect has already truncated the file — which is neither the previous
contents nor the final contents, so a run killed inside `write_json`
leaves a partial file. -/
theorem C7_counterexample :
    ["["] ∈ writeStates [exEntry 5, exEntry 7] ∧
    ["["] ≠ write_json [exEntry 5] ∧
    ["["] ≠ write_json [exEntry 5, exEntry 7] := by
  decide

/-- C7 (amended): the series file is written only by the single
`write_json` call at the end of a run, so a run killed at any point
before that call leaves the previous contents untouched; the write
itself, however, truncates the file and appends line by line, so every
state during the write is a (possibly strict) prefix of the final
contents rather than the old or new file as a whole. -/
theorem C7_single_final_write (old : List String) (es : List Entry) :
    (fileStates old es).head? = some old ∧
    (∀ s ∈ writeStates es, ∃ t, s ++ t = write_json es) ∧
    (writeStates es).getLast? = some (write_json es) := by
  refine ⟨rfl, ?_, ?_⟩
  · intro s hs
    obtain ⟨pre, post, hsplit, hacc⟩ := appendStates_mem_append hs
    refine ⟨post, ?_⟩
    rw [hacc, List.nil_append, ← hsplit]
  · unfold writeStates
    rw [appendStates_getLast (by unfold write_json; exact List.cons_ne_nil _ _)]
    rw [List.nil_append]

/-- Witness for C7 (amended): the truncated state `["["]` during the
write of a one-entry series is a prefix of the final contents. -/
theorem C7_single_final_write_witness :
    ∃ t, ["["] ++ t = write_json [exEntry 5] :=
  (C7_single_final_write (write_json [exEntry 5]) [exEntry 5]).2.1
    ["["] (by decide)

/-- Witness for C10: a parse failure yields the 500 error response, and
a successful body with an ok upstream yields 200 `{"ok":true}`. -/
theorem C10_handleVisit_total_witness :
    handleVisit (.error "bad json") ⟨none, none, none, none⟩
        (fun _ => none) (fun _ => .ok ⟨true, ""⟩) =
      ⟨500, .jsonError "bad json"⟩ ∧
    handleVisit (.ok ⟨none, none, none⟩) ⟨none, none, none, none⟩
        (fun _ => none) (fun _ => .ok ⟨true, ""⟩) = ⟨200, .jsonOk⟩ := by
  constructor
  · exact (C10_handleVisit_total (.error "bad json") ⟨none, none, none, none⟩
      (fun _ => none) (fun _ => .ok ⟨true, ""⟩)).2.1 "bad json" rfl
  · exact (C10_handleVisit_total (.ok ⟨none, none, none⟩)
      ⟨none, none, none, none⟩ (fun _ => none)
      (fun _ => .ok ⟨true, ""⟩)).2.2.2.2.mpr ⟨⟨none, none, none⟩, ⟨true, ""⟩, rfl, rfl, rfl⟩
